import Mathlib

/-!
Verification of the speaker-recognition training pipeline
(src/examples/audio/ipynb/speaker_recognition_using_cnn.ipynb).

The notebook's pure computations are shallowly embedded below: floating
point sample values become rationals (or reals where the model needs
`Real.exp`), tensors become lists, and fallible library operations
(float division by zero, stacking an empty tensor list) return `Option`.
Each definition carries a comment pointing at the notebook code it
embeds; a handful of definitions explicitly model behaviour that lives
in external libraries (numpy, Keras) and are marked as such.
-/

/- ===== Global configuration constants (notebook cell 5) ===== -/

/-- Constant `VALID_SPLIT = 0.1`. -/
def VALID_SPLIT : ℚ := 1 / 10

/-- Constant `SHUFFLE_SEED = 43`. -/
def SHUFFLE_SEED : ℕ := 43

/-- Constant `SAMPLING_RATE = 16000`. -/
def SAMPLING_RATE : ℕ := 16000

/-- Constant `SCALE = 0.5`. -/
def SCALE : ℚ := 1 / 2

/- ===== Dataset split (notebook cell 14) =====

`num_val_samples = int(VALID_SPLIT * len(audio_paths))`
`train_audio_paths = audio_paths[:-num_val_samples]`
`valid_audio_paths = audio_paths[-num_val_samples:]`  (same for labels) -/

/-- Python `int()` on a rational value: truncation toward zero. -/
def pyInt (q : ℚ) : ℤ := if 0 ≤ q then ⌊q⌋ else ⌈q⌉

/-- Python slice `l[:-n]` for a non-negative `n`: `-0` is `0`, so `n = 0`
yields the empty prefix; otherwise the stop index is `len - n`, clamped
to `0` when `n > len`. -/
def sliceToNegIdx {α : Type} (l : List α) (n : ℕ) : List α :=
  if n = 0 then [] else l.take (l.length - n)

/-- Python slice `l[-n:]` for a non-negative `n`: `-0` is `0`, so `n = 0`
yields the whole list; otherwise the start index is `len - n`, clamped
to `0` when `n > len`. -/
def sliceFromNegIdx {α : Type} (l : List α) (n : ℕ) : List α :=
  if n = 0 then l else l.drop (l.length - n)

/-- The split computed in cell 14: `num_val_samples` validation entries
are cut from the end of the (already shuffled) path and label lists.
Returns `((train_paths, train_labels), (valid_paths, valid_labels))`. -/
def split_dataset {P L : Type} (audio_paths : List P) (labels : List L)
    (valid_split : ℚ) : (List P × List L) × (List P × List L) :=
  let num_val_samples : ℕ := (pyInt (valid_split * audio_paths.length)).toNat
  ((sliceToNegIdx audio_paths num_val_samples, sliceToNegIdx labels num_val_samples),
   (sliceFromNegIdx audio_paths num_val_samples, sliceFromNegIdx labels num_val_samples))

/- ===== Noise file discovery (notebook cell 10) =====

`noise_paths` is collected from every subdirectory of the noise folder;
a file is kept when its name ends with `.wav`; if the collected list is
empty a `RuntimeError` is raised, otherwise the pipeline proceeds with
the list.  File names are abstract here: `isWav` stands for the
`filepath.endswith(".wav")` test. -/

/-- The `noise_paths` accumulation loop of cell 10: every entry of the
noise directory carries a flag saying whether it is a subdirectory
(`os.path.isdir`) together with its file listing. -/
def collectNoisePaths {F : Type} (isWav : F → Bool)
    (entries : List (Bool × List F)) : List F :=
  entries.foldl (fun acc e => if e.1 then acc ++ e.2.filter isWav else acc) []

/-- Outcome of the discovery step: either the fatal `RuntimeError` or the
list of found noise file paths. -/
inductive Discovery (F : Type) where
  | fatal : Discovery F
  | found : List F → Discovery F
deriving DecidableEq

/-- Discovery check `if not noise_paths: raise RuntimeError(...)` of cell 10. -/
def noiseDiscovery {F : Type} (isWav : F → Bool)
    (entries : List (Bool × List F)) : Discovery F :=
  let ps := collectNoisePaths isWav entries
  if ps.isEmpty then Discovery.fatal else Discovery.found ps

/- ===== Noise chunking (notebook cell 12) =====

`load_noise_sample`:
`slices = int(sample.shape[0] / SAMPLING_RATE)`
`sample = tf.split(sample[: slices * SAMPLING_RATE], slices)` when the
decoded rate matches `SAMPLING_RATE`; `None` otherwise.  `tf.split`
carries the attr constraint `num_split >= 1`, so `slices = 0` (a
rate-matching source shorter than one second) raises inside
`load_noise_sample` instead of returning. -/

/-- Split the first `k * width` elements of `l` into `k` contiguous
chunks of length `width` (the semantics of `tf.split(x[: k*width], k)`
on a length-`k*width` tensor, for `k >= 1`). -/
def chunksOf {α : Type} (width : ℕ) : ℕ → List α → List (List α)
  | 0, _ => []
  | k + 1, l => l.take width :: chunksOf width k (l.drop width)

/-- Outcome of `load_noise_sample` on one source file: `skipped` is the
`None` returned on a rate mismatch; `splitError` is the exception
raised by `tf.split(sample[:0], 0)` when `slices = 0` (the Split op
requires `num_split >= 1`); `chunks` is the list of one-second
chunks. -/
inductive LoadResult where
  | skipped : LoadResult
  | splitError : LoadResult
  | chunks : List (List ℚ) → LoadResult
deriving DecidableEq

/-- Function `load_noise_sample` of cell 12.  A noise source is its decoded
sample list together with its declared sampling rate; a rate mismatch
yields `skipped` (warned, not fatal); a matching rate runs
`tf.split`, which raises when `slices = 0`. -/
def load_noise_sample (sample : List ℚ) (sampling_rate : ℕ) : LoadResult :=
  if sampling_rate = SAMPLING_RATE then
    if sample.length / SAMPLING_RATE = 0 then LoadResult.splitError
    else LoadResult.chunks (chunksOf SAMPLING_RATE (sample.length / SAMPLING_RATE)
      (sample.take ((sample.length / SAMPLING_RATE) * SAMPLING_RATE)))
  else LoadResult.skipped

/-- Stacking `noises = tf.stack(noises)`: `tf.stack` succeeds on any
list of equally shaped tensors, and on the empty list as well
(`convert_to_tensor([])` yields a `(0,)`-shaped tensor before the Pack
op's `N >= 1` constraint is ever consulted); the pooled 2-D tensor is
the chunk list itself. -/
def tfStack (chunks : List (List ℚ)) : List (List ℚ) := chunks

/-- The shape tuple of the stacked tensor: an empty stack is the
`(0,)`-shaped tensor produced by `convert_to_tensor([])`; a nonempty
stack of chunks prepends the chunk count to the chunk shape. -/
def stackedShape (chunks : List (List ℚ)) : List ℕ :=
  match chunks with
  | [] => [0]
  | c :: _ => [chunks.length, c.length]

/-- The pooling loop of cell 12: each source file contributes its
chunks; a `skipped` file contributes nothing (Python `if sample:` on
`None` is false); a `splitError` aborts the whole loop with the raised
exception. -/
def poolStep : Option (List (List ℚ)) → List ℚ × ℕ → Option (List (List ℚ))
  | none, _ => none
  | some acc, f =>
      match load_noise_sample f.1 f.2 with
      | LoadResult.skipped => some acc
      | LoadResult.splitError => none
      | LoadResult.chunks cs => some (acc ++ cs)

/-- Outcome of the tail of cell 12: `splitError` when a rate-matching
short file raised inside the loop; `stackError` would be a failure of
`tf.stack` itself (it never occurs); `printError` when the stack
succeeded but the summary print's `noises.shape[1]` access is out of
range; `ok` with the pooled chunks otherwise. -/
inductive PoolOutcome where
  | splitError : PoolOutcome
  | stackError : PoolOutcome
  | printError : List (List ℚ) → PoolOutcome
  | ok : List (List ℚ) → PoolOutcome
deriving DecidableEq

/-- Cell 12 after path discovery: run the pooling loop, stack the
collected chunks, then execute the summary print, which reads
`noises.shape[1]` (an IndexError on a `(0,)`-shaped tensor). -/
def noisePoolCell (files : List (List ℚ × ℕ)) : PoolOutcome :=
  match files.foldl poolStep (some []) with
  | none => PoolOutcome.splitError
  | some noises =>
      match (stackedShape (tfStack noises)).get? 1 with
      | some _ => PoolOutcome.ok (tfStack noises)
      | none => PoolOutcome.printError (tfStack noises)

/- ===== Noise injection (notebook cell 14, `add_noise`) =====

`prop = tf.math.reduce_max(audio, axis=1) / tf.math.reduce_max(noise, axis=1)`
`audio = audio + noise * prop * scale`
Note: `reduce_max` is the maximum of the raw (signed) samples; no
absolute value is taken. -/

/-- Reduction `tf.math.reduce_max` along a waveform: maximum of the samples
(waveforms are nonempty in the pipeline; the empty case is given the
junk value `0`). -/
def listMax {α : Type} [LinearOrderedField α] : List α → α
  | [] => 0
  | x :: xs => xs.foldl max x

/-- The peak absolute amplitude `max |w i|` of a waveform; this is the
quantity the specification's `max(|waveform|)` denotes. -/
def maxAbs {α : Type} [LinearOrderedField α] (w : List α) : α :=
  listMax (w.map (fun x => |x|))

/-- Function `add_noise` restricted to one waveform and its drawn noise chunk,
with total field division (`x / 0 = 0`): the mixing coefficient is the
ratio of the signed maxima, broadcast over the waveform. -/
def addNoiseWave {α : Type} [LinearOrderedField α] (scale : α)
    (audio noise : List α) : List α :=
  let prop := listMax audio / listMax noise
  List.zipWith (fun a n => a + n * prop * scale) audio noise

/-- Float division by zero is not a number: the checked variant of the
`prop` computation fails when the chunk's maximum is zero. -/
def checkedDiv (a b : ℚ) : Option ℚ :=
  if b = 0 then none else some (a / b)

/-- Function `add_noise` on one waveform with the division-by-zero hazard made
explicit: `none` exactly when the noise chunk's `reduce_max` is zero. -/
def addNoiseWaveChecked (scale : ℚ) (audio noise : List ℚ) :
    Option (List ℚ) :=
  (checkedDiv (listMax audio) (listMax noise)).map
    (fun prop => List.zipWith (fun a n => a + n * prop * scale) audio noise)

/-- Batch-level `add_noise`: waveform `i` of the batch is paired with
the pool chunk selected by the random draw `draw i` (the
`tf.random.uniform` / `tf.gather` pair of cell 14). -/
def addNoiseBatchChecked (pool : List (List ℚ)) (draw : ℕ → ℕ)
    (scale : ℚ) (batch : List (List ℚ)) : List (Option (List ℚ)) :=
  batch.enum.map (fun p => addNoiseWaveChecked scale p.2 (pool.getD (draw p.1) []))

/- ===== Spectral transform (notebook cell 14, `audio_to_fft`) =====

`fft = tf.signal.fft(complex(audio, 0))`; the result is the magnitude of
the first `audio.shape[1] // 2` bins. -/

/-- Bin `k` of the discrete Fourier transform of a real waveform
(imaginary part of the input is zero). -/
noncomputable def dftBin (x : List ℝ) (k : ℕ) : ℂ :=
  (x.enum.map (fun p =>
    (p.2 : ℂ) *
      Complex.exp (-2 * Real.pi * Complex.I * p.1 * k / x.length))).sum

/-- Function `audio_to_fft` on a single waveform: magnitudes of the first
`length / 2` DFT bins (the positive frequencies). -/
noncomputable def audio_to_fft_wave (x : List ℝ) : List ℝ :=
  (List.range (x.length / 2)).map (fun k => Complex.abs (dftBin x k))

/-- Function `audio_to_fft` on a batch (the squeeze / expand of the channel axis
makes it act per waveform). -/
noncomputable def audio_to_fft (batch : List (List ℝ)) : List (List ℝ) :=
  batch.map audio_to_fft_wave

/- ===== Stream construction (notebook cells 14 and 23) =====

After shuffling and batching, the per-batch `.map` stages applied to
each stream are:
  `train_ds`: `add_noise` then `audio_to_fft`;
  `valid_ds`: `audio_to_fft` only;
  `test_ds`  (demo cell 23): `add_noise` only (the demo applies
  `audio_to_fft` manually inside its loop). -/

/-- A per-batch `.map` stage of a `tf.data` stream. -/
inductive PipeStage where
  | noiseInjection : PipeStage
  | spectralTransform : PipeStage
deriving DecidableEq

/-- The `.map` stages applied to `train_ds` in cell 14, in order. -/
def train_ds_maps : List PipeStage :=
  [PipeStage.noiseInjection, PipeStage.spectralTransform]

/-- The `.map` stages applied to `valid_ds` in cell 14, in order. -/
def valid_ds_maps : List PipeStage :=
  [PipeStage.spectralTransform]

/-- The `.map` stages applied to `test_ds` in cell 23, in order. -/
def test_ds_maps : List PipeStage :=
  [PipeStage.noiseInjection]

/-- Semantics of one stage on a waveform batch: noise injection pairs
waveform `i` with the pool chunk selected by `draw i` and mixes at the
given scale; the spectral transform is `audio_to_fft`. -/
noncomputable def stageSem (pool : List (List ℝ)) (draw : ℕ → ℕ)
    (scale : ℝ) : PipeStage → List (List ℝ) → List (List ℝ)
  | PipeStage.noiseInjection => fun batch =>
      batch.enum.map (fun p => addNoiseWave scale p.2 (pool.getD (draw p.1) []))
  | PipeStage.spectralTransform => audio_to_fft

/-- Run the `.map` stages of a stream over one batch, in order. -/
noncomputable def runStages (pool : List (List ℝ)) (draw : ℕ → ℕ)
    (scale : ℝ) (stages : List PipeStage) (batch : List (List ℝ)) :
    List (List ℝ) :=
  stages.foldl (fun b s => stageSem pool draw scale s b) batch

/- ===== Model (notebook cell 16, `residual_block` / `build_model`) =====

A feature map is a time-major list of channel vectors.  Convolution
kernels are laid out `[tap][output channel][input channel]`; a `Dense`
weight matrix is laid out `[output unit][input unit]`.  Zero padding is
realised by an empty channel row: the truncating `zipWith` dot product
then contributes zero, exactly as a padded zero row would. -/

/-- Dot product, truncating at the shorter list. -/
def dotL {α : Type} [LinearOrderedField α] (a b : List α) : α :=
  (List.zipWith (fun x y => x * y) a b).sum

/-- Layer `keras.layers.Dense` without activation: one output per weight row. -/
def denseLayer {α : Type} [LinearOrderedField α]
    (w : List (List α)) (b : List α) (x : List α) : List α :=
  (w.zip b).map (fun rb => dotL rb.1 x + rb.2)

/-- Activation `relu` on a vector. -/
def reluV {α : Type} [LinearOrderedField α] (x : List α) : List α :=
  x.map (fun v => max v 0)

/-- Activation `relu` on a feature map. -/
def reluT {α : Type} [LinearOrderedField α] (x : List (List α)) : List (List α) :=
  x.map reluV

/-- The channel row at (possibly out-of-range) position `i`, empty rows
standing for the zero padding of `padding="same"`. -/
def padRow {α : Type} (x : List (List α)) (i : ℤ) : List α :=
  if 0 ≤ i then x.getD i.toNat [] else []

/-- One output position of `Conv1D(filters, k, padding="same")`:
output channel `o` at time `t` is
`bias o + sum over taps d of (kernel d o) . (input row at t + d - (k-1)/2)`. -/
def convOutAt {α : Type} [LinearOrderedField α]
    (ker : List (List (List α))) (bias : List α) (x : List (List α))
    (t : ℕ) : List α :=
  bias.enum.map (fun ob =>
    ob.2 + (ker.enum.map (fun dk =>
      dotL (dk.2.getD ob.1 [])
        (padRow x ((t : ℤ) + dk.1 - ((ker.length - 1) / 2 : ℕ))))).sum)

/-- Layer `keras.layers.Conv1D(filters, k, padding="same")`: the output keeps
the temporal length of the input. -/
def conv1dSame {α : Type} [LinearOrderedField α]
    (ker : List (List (List α))) (bias : List α) (x : List (List α)) :
    List (List α) :=
  (List.range x.length).map (convOutAt ker bias x)

/-- Layer `keras.layers.MaxPool1D(pool_size=2, strides=2)`. -/
def maxPool2 {α : Type} [LinearOrderedField α] (x : List (List α)) :
    List (List α) :=
  (List.range (x.length / 2)).map (fun t =>
    List.zipWith max (x.getD (2 * t) []) (x.getD (2 * t + 1) []))

/-- Layer `keras.layers.AveragePooling1D(pool_size=3, strides=3)`. -/
def avgPool3 {α : Type} [LinearOrderedField α] (x : List (List α)) :
    List (List α) :=
  (List.range (x.length / 3)).map (fun t =>
    (List.zipWith (fun a b => a + b)
      (List.zipWith (fun a b => a + b) (x.getD (3 * t) []) (x.getD (3 * t + 1) []))
      (x.getD (3 * t + 2) [])).map (fun v => v / 3))

/-- Elementwise `keras.layers.Add`. -/
def addT {α : Type} [LinearOrderedField α] (x y : List (List α)) :
    List (List α) :=
  List.zipWith (List.zipWith (fun a b => a + b)) x y

/-- The main path of `residual_block`: `conv_num - 1` repetitions of
(width-3 convolution, relu) followed by one final width-3 convolution
without activation; the list carries one (kernel, bias) pair per
convolution. -/
def mainPath {α : Type} [LinearOrderedField α] :
    List (List (List (List α)) × List α) → List (List α) → List (List α)
  | [], x => x
  | [kb], x => conv1dSame kb.1 kb.2 x
  | kb :: kb2 :: rest, x =>
      mainPath (kb2 :: rest) (reluT (conv1dSame kb.1 kb.2 x))

/-- Block `residual_block` of cell 16: width-1 shortcut convolution, the main
path, `Add`, relu, then the length-halving max pooling. -/
def residual_block {α : Type} [LinearOrderedField α]
    (shortcut : List (List (List α)) × List α)
    (convs : List (List (List (List α)) × List α))
    (x : List (List α)) : List (List α) :=
  maxPool2 (reluT (addT (mainPath convs x) (conv1dSame shortcut.1 shortcut.2 x)))

/-- The learnable parameters of `build_model`: the residual blocks
(shortcut weights plus main-path convolution weights), the two hidden
`Dense` layers and the final `Dense(num_classes)` layer. -/
structure ModelWeights (α : Type) where
  blocks : List ((List (List (List α)) × List α) ×
                 List (List (List (List α)) × List α))
  d1w : List (List α)
  d1b : List α
  d2w : List (List α)
  d2b : List α
  dOutW : List (List α)
  dOutB : List α

/-- Activation `softmax` over the reals. -/
noncomputable def softmaxV (z : List ℝ) : List ℝ :=
  z.map (fun zi => Real.exp zi / (z.map Real.exp).sum)

/-- The forward pass of `build_model` on one input feature map: the
residual block stack, `AveragePooling1D(3, 3)`, `Flatten`,
`Dense(256, relu)`, `Dense(128, relu)` and the final softmax
`Dense(num_classes)` output layer. -/
noncomputable def build_model (w : ModelWeights ℝ) (x : List (List ℝ)) :
    List ℝ :=
  softmaxV (denseLayer w.dOutW w.dOutB
    (reluV (denseLayer w.d2w w.d2b
      (reluV (denseLayer w.d1w w.d1b
        ((avgPool3 (w.blocks.foldl (fun t bw => residual_block bw.1 bw.2 t) x)).flatten))))))

/- ===== Training controller (notebook cells 16 and 18) =====

`model.fit(..., epochs=EPOCHS, callbacks=[earlystopping_cb, mdlcheckpoint_cb])`
with `earlystopping_cb = keras.callbacks.EarlyStopping(patience=10,
restore_best_weights=True)`.  The `fit` / callback machinery lives in
Keras, not in this repository.  Modelled from the spec: the controller
tracks the best validation accuracy seen; an epoch whose accuracy does
not strictly improve on the best increments a wait counter, an
improving epoch resets it and records the epoch; once the counter
reaches `patience` training halts and the best-seen epoch's parameters
are restored. -/

/-- Early-stopping bookkeeping: best accuracy seen (none before the
first epoch), the epoch that achieved it, and the count of consecutive
non-improving epochs. -/
structure ESState where
  best : Option ℚ
  bestEpoch : ℕ
  wait : ℕ
deriving DecidableEq

/-- Does accuracy `a` strictly improve on the best seen? -/
def esImproves (st : ESState) (a : ℚ) : Bool :=
  match st.best with
  | none => true
  | some b => decide (b < a)

/-- One epoch of the early-stopping controller: the new state and
whether training halts after this epoch. -/
def esStep (patience : ℕ) (st : ESState) (epoch : ℕ) (a : ℚ) :
    ESState × Bool :=
  if esImproves st a then (⟨some a, epoch, 0⟩, false)
  else (⟨st.best, st.bestEpoch, st.wait + 1⟩, decide (patience ≤ st.wait + 1))

/-- Run the controller over a list of epoch numbers; the result pairs
the halting epoch (`none` when every epoch ran) with the final state,
whose `bestEpoch` names the restored parameters. -/
def esRunAux (patience : ℕ) (acc : ℕ → ℚ) (st : ESState) :
    List ℕ → Option ℕ × ESState
  | [] => (none, st)
  | e :: es =>
      let r := esStep patience st e (acc e)
      if r.2 then (some e, r.1) else esRunAux patience acc r.1 es

/-- A full training run over epochs `1, ..., maxEpochs` with validation
accuracy `acc`. -/
def esRun (patience maxEpochs : ℕ) (acc : ℕ → ℚ) : Option ℕ × ESState :=
  esRunAux patience acc ⟨none, 0, 0⟩ (List.range' 1 maxEpochs)

/- ===== Seeded shuffle (notebook cell 14) =====

`rng = np.random.RandomState(SHUFFLE_SEED); rng.shuffle(audio_paths)`
and again, with a fresh generator seeded identically, for `labels`.
Modelled from the spec: numpy's shuffle is a Fisher-Yates pass whose
random draws are a pure function of the seed and of the loop position
(for `i = n-1, ..., 1` it draws `j` uniformly from `[0, i]` and swaps
positions `i` and `j`).  The draw stream is abstracted as `g`; both
shuffles of equal-length lists with the same seed see the same `g`. -/

/-- Swap the elements at positions `i` and `j` (identity when either
index is out of range). -/
def swapIdx {α : Type} (l : List α) (i j : ℕ) : List α :=
  match l.get? i, l.get? j with
  | some a, some b => (l.set i b).set j a
  | _, _ => l

/-- The Fisher-Yates loop from position `k` down to `1`: at position
`i` the draw `g i` is reduced to a partner `j` in `[0, i]`. -/
def fyAux {α : Type} (g : ℕ → ℕ) : ℕ → List α → List α
  | 0, l => l
  | k + 1, l => fyAux g k (swapIdx l (k + 1) (g (k + 1) % (k + 2)))

/-- Shuffle `np.random.RandomState(seed).shuffle`, with `g` the seed-determined
draw stream. -/
def npShuffle {α : Type} (g : ℕ → ℕ) (l : List α) : List α :=
  fyAux g (l.length - 1) l

/- ===== Concrete instances used by witnesses ===== -/

/-- A validation-accuracy history that climbs every epoch up to its
peak at epoch 12 and never improves afterwards. -/
def accPeak12 (e : ℕ) : ℚ := ((min e 12 : ℕ) : ℚ)

/-- A minimal weight assignment whose output layer has one unit. -/
noncomputable def modelWitnessWeights : ModelWeights ℝ :=
  ⟨[], [], [], [], [], [[]], [0]⟩

/- ===== Helper lemmas ===== -/

theorem sliceFromNegIdx_of_ne {α : Type} (l : List α) (n : ℕ) (h : n ≠ 0) :
    sliceFromNegIdx l n = l.drop (l.length - n) := by
  simp [sliceFromNegIdx, h]

theorem sliceToNegIdx_of_ne {α : Type} (l : List α) (n : ℕ) (h : n ≠ 0) :
    sliceToNegIdx l n = l.take (l.length - n) := by
  simp [sliceToNegIdx, h]

/- ===== C4 ===== -/

/-- When the computed validation count is zero, the slice
`audio_paths[-0:]` is the whole list. -/
theorem split_valid_of_numVal_zero {P L : Type} (paths : List P)
    (labels : List L) (f : ℚ)
    (h : (pyInt (f * paths.length)).toNat = 0) :
    (split_dataset paths labels f).2.1 = paths := by
  simp [split_dataset, h, sliceFromNegIdx]

/-- C4 counterexample: with 5 clips and valid_fraction 0.1 the slice
`audio_paths[-0:]` keeps every clip as validation data (5 entries),
not `floor(0.1 * 5) = 0` of them. -/
theorem c4_split_counterexample :
    ¬ (((split_dataset [0, 1, 2, 3, 4] [9, 9, 9, 9, 9] (1 / 10) :
          (List ℕ × List ℕ) × (List ℕ × List ℕ)).2.1.length : ℤ)
        = pyInt ((1 / 10) * (([0, 1, 2, 3, 4] : List ℕ).length : ℚ))) := by
  have hq : (1 / 10 : ℚ) * (([0, 1, 2, 3, 4] : List ℕ).length : ℚ) = 1 / 2 := by
    norm_num
  have hpy : pyInt ((1 / 10) * (([0, 1, 2, 3, 4] : List ℕ).length : ℚ)) = 0 := by
    rw [hq, pyInt, if_pos (by norm_num), Int.floor_eq_zero_iff]
    constructor <;> norm_num
  rw [hpy, split_valid_of_numVal_zero _ _ _ (by rw [hpy]; rfl)]
  norm_num

/-- C4 (amended): for every clip collection and every valid_fraction
with `0 ≤ f ≤ 1` whose computed validation count `int(f * total)` is at
least 1, the split takes the last `num_val` shuffled entries (of both
the path and the label sequence) as the validation set and the
remaining prefix as the training set, and the sizes satisfy
`len(train) + len(valid) = total` and `len(valid) = num_val`. -/
theorem c4_split_amended {P L : Type} (paths : List P) (labels : List L)
    (f : ℚ) (hlab : labels.length = paths.length)
    (hf0 : 0 ≤ f) (hf1 : f ≤ 1)
    (hpos : 1 ≤ (pyInt (f * paths.length)).toNat) :
    (split_dataset paths labels f).1.1.length +
        (split_dataset paths labels f).2.1.length = paths.length ∧
    (split_dataset paths labels f).2.1.length = (pyInt (f * paths.length)).toNat ∧
    (split_dataset paths labels f).1.1 =
      paths.take (paths.length - (pyInt (f * paths.length)).toNat) ∧
    (split_dataset paths labels f).2.1 =
      paths.drop (paths.length - (pyInt (f * paths.length)).toNat) ∧
    (split_dataset paths labels f).1.2 =
      labels.take (labels.length - (pyInt (f * paths.length)).toNat) ∧
    (split_dataset paths labels f).2.2 =
      labels.drop (labels.length - (pyInt (f * paths.length)).toNat) ∧
    (split_dataset paths labels f).2.2.length = (pyInt (f * paths.length)).toNat := by
  have hq0 : (0 : ℚ) ≤ f * paths.length := mul_nonneg hf0 (Nat.cast_nonneg _)
  have hmul : f * (paths.length : ℚ) ≤ paths.length := by
    have hc : (0 : ℚ) ≤ (paths.length : ℚ) := Nat.cast_nonneg paths.length
    have h := mul_le_mul_of_nonneg_right hf1 hc
    simpa using h
  have hple : pyInt (f * paths.length) ≤ (paths.length : ℤ) := by
    rw [pyInt, if_pos hq0]
    calc ⌊f * (paths.length : ℚ)⌋ ≤ ⌊((paths.length : ℚ))⌋ := Int.floor_le_floor hmul
      _ = (paths.length : ℤ) := Int.floor_natCast _
  have hle : (pyInt (f * paths.length)).toNat ≤ paths.length := Int.toNat_le.mpr hple
  have hnz : (pyInt (f * paths.length)).toNat ≠ 0 := by omega
  refine ⟨?_, ?_, ?_, ?_, ?_, ?_, ?_⟩ <;>
    simp [split_dataset, sliceToNegIdx_of_ne _ _ hnz, sliceFromNegIdx_of_ne _ _ hnz,
      hlab] <;> omega

/-- C4 witness: 7500 clips with valid_fraction 0.1 give 6750 training
and 750 validation entries. -/
theorem c4_split_witness :
    ((split_dataset (List.replicate 7500 (0 : ℕ)) (List.replicate 7500 (0 : ℕ))
        (1 / 10)).1.1.length = 6750) ∧
    ((split_dataset (List.replicate 7500 (0 : ℕ)) (List.replicate 7500 (0 : ℕ))
        (1 / 10)).2.1.length = 750) := by
  have hnum : (pyInt ((1 / 10 : ℚ) *
      ((List.replicate 7500 (0 : ℕ)).length : ℚ))).toNat = 750 := by
    have h1 : ((List.replicate 7500 (0 : ℕ)).length : ℚ) = ((7500 : ℕ) : ℚ) := by
      rw [List.length_replicate]
    rw [h1]
    have h2 : (1 / 10 : ℚ) * ((7500 : ℕ) : ℚ) = ((750 : ℕ) : ℚ) := by norm_num
    rw [h2, pyInt, if_pos (by positivity), Int.floor_natCast]
    rfl
  have h := c4_split_amended (List.replicate 7500 (0 : ℕ))
      (List.replicate 7500 (0 : ℕ)) (1 / 10) rfl (by norm_num) (by norm_num)
      (by rw [hnum]; norm_num)
  obtain ⟨hsum, hval, -, -, -, -, -⟩ := h
  rw [hnum] at hval
  have hlen : (List.replicate 7500 (0 : ℕ)).length = 7500 := by
    rw [List.length_replicate]
  rw [hlen] at hsum
  exact ⟨by omega, hval⟩

/- ===== C6 ===== -/

/-- Splitting a list of length exactly `k * width` into `k` chunks
gives `k` chunks of length `width` whose concatenation is the list. -/
theorem chunksOf_spec {α : Type} (width : ℕ) :
    ∀ (k : ℕ) (l : List α), l.length = k * width →
      (chunksOf width k l).length = k ∧
      (∀ c ∈ chunksOf width k l, c.length = width) ∧
      (chunksOf width k l).flatten = l
  | 0, l, h => by
    have : l = [] := List.length_eq_zero.mp (by simpa using h)
    subst this
    exact ⟨rfl, by simp [chunksOf], by simp [chunksOf]⟩
  | k + 1, l, h => by
    have hlen : width ≤ l.length := by
      rw [h, Nat.succ_mul]
      exact Nat.le_add_left _ _
    have hdrop : (l.drop width).length = k * width := by
      rw [List.length_drop, h, Nat.succ_mul]
      omega
    obtain ⟨ihlen, ihmem, ihjoin⟩ := chunksOf_spec width k (l.drop width) hdrop
    refine ⟨?_, ?_, ?_⟩
    · simp [chunksOf, ihlen]
    · intro c hc
      rw [chunksOf] at hc
      rcases List.mem_cons.mp hc with hc | hc
      · subst hc
        rw [List.length_take]
        omega
      · exact ihmem c hc
    · rw [chunksOf, List.flatten_cons, ihjoin, List.take_append_drop]

/-- C6 counterexample: a rate-matching source of 100 samples (shorter
than one second) makes `load_noise_sample` raise inside
`tf.split(sample[:0], 0)` rather than emit `floor(100/16000) = 0`
chunks. -/
theorem c6_short_source_counterexample :
    load_noise_sample (List.replicate 100 (0 : ℚ)) SAMPLING_RATE
      = LoadResult.splitError ∧
    ¬ ∃ chunks, load_noise_sample (List.replicate 100 (0 : ℚ)) SAMPLING_RATE
      = LoadResult.chunks chunks := by
  have h0 : (List.replicate 100 (0 : ℚ)).length / SAMPLING_RATE = 0 := by
    rw [List.length_replicate]
    decide
  have h1 : load_noise_sample (List.replicate 100 (0 : ℚ)) SAMPLING_RATE
      = LoadResult.splitError := by
    rw [load_noise_sample, if_pos rfl, if_pos h0]
  refine ⟨h1, ?_⟩
  rintro ⟨c, hc⟩
  rw [h1] at hc
  cases hc

/-- C6 (amended): a noise source whose declared rate equals the target
rate and which holds at least one full second of samples is split into
exactly `floor(samples / SAMPLING_RATE)` chunks, each `SAMPLING_RATE`
samples long, whose concatenation is the first
`slices * SAMPLING_RATE` samples of the source (the tail remainder is
discarded); a rate-matching source shorter than one second instead
raises in `tf.split` (the Split op requires `num_split >= 1`). -/
theorem c6_noise_chunking_amended (sample : List ℚ) (srate : ℕ)
    (h : srate = SAMPLING_RATE) :
    (sample.length < SAMPLING_RATE →
      load_noise_sample sample srate = LoadResult.splitError) ∧
    (SAMPLING_RATE ≤ sample.length →
      ∃ chunks, load_noise_sample sample srate = LoadResult.chunks chunks ∧
        chunks.length = sample.length / SAMPLING_RATE ∧
        (∀ c ∈ chunks, c.length = SAMPLING_RATE) ∧
        chunks.flatten =
          sample.take ((sample.length / SAMPLING_RATE) * SAMPLING_RATE)) := by
  subst h
  constructor
  · intro hshort
    rw [load_noise_sample, if_pos rfl, if_pos (Nat.div_eq_of_lt hshort)]
  · intro hlong
    have hpos : sample.length / SAMPLING_RATE ≠ 0 := by
      have h1 : 1 ≤ sample.length / SAMPLING_RATE := by
        rw [Nat.le_div_iff_mul_le (by norm_num [SAMPLING_RATE])]
        simpa using hlong
      omega
    have htake : (sample.take ((sample.length / SAMPLING_RATE) * SAMPLING_RATE)).length
        = (sample.length / SAMPLING_RATE) * SAMPLING_RATE := by
      rw [List.length_take]
      exact Nat.min_eq_left (Nat.div_mul_le_self _ _)
    obtain ⟨h1, h2, h3⟩ := chunksOf_spec SAMPLING_RATE (sample.length / SAMPLING_RATE)
      (sample.take ((sample.length / SAMPLING_RATE) * SAMPLING_RATE)) htake
    exact ⟨_, by rw [load_noise_sample, if_pos rfl, if_neg hpos], h1, h2, h3⟩

/-- C6 witness: a 6-second source (96000 samples) at the target rate
yields exactly 6 chunks and the concatenation of the chunks is the
whole source (zero discarded samples). -/
theorem c6_noise_chunking_amended_witness :
    ∃ chunks,
      load_noise_sample (List.replicate 96000 (0 : ℚ)) SAMPLING_RATE
        = LoadResult.chunks chunks ∧
      chunks.length = 6 ∧
      (∀ c ∈ chunks, c.length = SAMPLING_RATE) ∧
      chunks.flatten = List.replicate 96000 (0 : ℚ) := by
  obtain ⟨c, hc, hlen, hmem, hjoin⟩ :=
    (c6_noise_chunking_amended (List.replicate 96000 (0 : ℚ)) SAMPLING_RATE rfl).2
      (by rw [List.length_replicate]; norm_num [SAMPLING_RATE])
  have hL : (List.replicate 96000 (0 : ℚ)).length = 96000 := by
    rw [List.length_replicate]
  have hdiv : (List.replicate 96000 (0 : ℚ)).length / SAMPLING_RATE = 6 := by
    rw [hL]
    norm_num [SAMPLING_RATE]
  rw [hdiv] at hlen hjoin
  have htake : List.take (6 * SAMPLING_RATE) (List.replicate 96000 (0 : ℚ))
      = List.replicate 96000 (0 : ℚ) := by
    apply List.take_of_length_le
    rw [hL]
    norm_num [SAMPLING_RATE]
  rw [htake] at hjoin
  exact ⟨c, hc, hlen, hmem, hjoin⟩

/- ===== C7 ===== -/

/-- C7: noise-file discovery raises the fatal error if and only if zero
noise files are collected; when at least one is found the step reports
no error and hands the found paths on to the pipeline. -/
theorem c7_discovery_fatal_iff {F : Type} (isWav : F → Bool)
    (entries : List (Bool × List F)) :
    (noiseDiscovery isWav entries = Discovery.fatal ↔
      collectNoisePaths isWav entries = []) ∧
    (collectNoisePaths isWav entries ≠ [] →
      noiseDiscovery isWav entries = Discovery.found (collectNoisePaths isWav entries)) := by
  constructor
  · by_cases h : collectNoisePaths isWav entries = []
    · simp [noiseDiscovery, h]
    · simp [noiseDiscovery, List.isEmpty_iff, h]
  · intro h
    simp [noiseDiscovery, List.isEmpty_iff, h]

/-- C7 witness: a noise directory with one subdirectory holding one
`.wav` file is discovered without error; the same iff specialises to
the concrete instance. -/
theorem c7_discovery_fatal_iff_witness :
    (noiseDiscovery (fun _ : ℕ => true) [(true, [7])] = Discovery.fatal ↔
      collectNoisePaths (fun _ : ℕ => true) [(true, [7])] = []) ∧
    noiseDiscovery (fun _ : ℕ => true) [(true, [7])] = Discovery.found [7] := by
  have h := c7_discovery_fatal_iff (fun _ : ℕ => true) [(true, [7])]
  refine ⟨h.1, ?_⟩
  have h2 := h.2 (by decide)
  simpa [collectNoisePaths] using h2

/- ===== C10 ===== -/

/-- A rate-mismatching file advances the pooling loop unchanged. -/
theorem poolStep_of_mismatch (acc : List (List ℚ)) (f : List ℚ × ℕ)
    (h : f.2 ≠ SAMPLING_RATE) : poolStep (some acc) f = some acc := by
  rw [poolStep, load_noise_sample, if_neg h]

/-- When every file's rate mismatches, the pooling loop collects
nothing and never raises. -/
theorem foldl_poolStep_all_mismatch :
    ∀ (files : List (List ℚ × ℕ)) (acc : List (List ℚ)),
      (∀ f ∈ files, f.2 ≠ SAMPLING_RATE) →
      files.foldl poolStep (some acc) = some acc
  | [], _, _ => rfl
  | f :: fs, acc, h => by
    rw [List.foldl_cons, poolStep_of_mismatch acc f (h f (List.mem_cons_self f fs))]
    exact foldl_poolStep_all_mismatch fs acc
      (fun g hg => h g (List.mem_cons_of_mem f hg))

/-- A rate-matching file holding at least one full second of samples
contributes a nonempty chunk list. -/
theorem load_noise_sample_chunks (sample : List ℚ) (srate : ℕ)
    (hrate : srate = SAMPLING_RATE) (hlen : SAMPLING_RATE ≤ sample.length) :
    ∃ chunks, load_noise_sample sample srate = LoadResult.chunks chunks ∧
      chunks ≠ [] := by
  subst hrate
  have h1 : 1 ≤ sample.length / SAMPLING_RATE := by
    rw [Nat.le_div_iff_mul_le (by norm_num [SAMPLING_RATE])]
    simpa using hlen
  obtain ⟨k, hk⟩ : ∃ k, sample.length / SAMPLING_RATE = k + 1 :=
    ⟨sample.length / SAMPLING_RATE - 1, by omega⟩
  refine ⟨_, by rw [load_noise_sample, if_pos rfl, if_neg (by omega)], ?_⟩
  rw [hk, chunksOf]
  exact List.cons_ne_nil _ _

/-- As long as no rate-matching file is shorter than one second, the
pooling loop never raises and only appends to its accumulator. -/
theorem foldl_poolStep_safe :
    ∀ (files : List (List ℚ × ℕ)) (acc : List (List ℚ)),
      (∀ f ∈ files, f.2 = SAMPLING_RATE → SAMPLING_RATE ≤ f.1.length) →
      ∃ r, files.foldl poolStep (some acc) = some (acc ++ r)
  | [], acc, _ => ⟨[], by rw [List.foldl_nil, List.append_nil]⟩
  | f :: fs, acc, hsafe => by
    rw [List.foldl_cons]
    have hstep : ∃ s, poolStep (some acc) f = some (acc ++ s) := by
      by_cases hr : f.2 = SAMPLING_RATE
      · obtain ⟨cs, hload, -⟩ := load_noise_sample_chunks f.1 f.2 hr
          (hsafe f (List.mem_cons_self f fs) hr)
        rw [poolStep, hload]
        exact ⟨cs, rfl⟩
      · rw [poolStep_of_mismatch acc f hr]
        exact ⟨[], by rw [List.append_nil]⟩
    obtain ⟨s, hs⟩ := hstep
    obtain ⟨r, hr2⟩ := foldl_poolStep_safe fs (acc ++ s)
      (fun g hg => hsafe g (List.mem_cons_of_mem f hg))
    exact ⟨s ++ r, by rw [hs, hr2, List.append_assoc]⟩

/-- A run of the cell whose pooling loop ends with a nonempty chunk
list stacks it and prints its shape without error. -/
theorem noisePoolCell_of_some (files : List (List ℚ × ℕ))
    (pool : List (List ℚ)) (h : files.foldl poolStep (some []) = some pool)
    (hne : pool ≠ []) : noisePoolCell files = PoolOutcome.ok (tfStack pool) := by
  rw [noisePoolCell, h]
  obtain ⟨c, cs, rfl⟩ := List.exists_cons_of_ne_nil hne
  rfl

/-- C10 counterexample: with one discovered file at 8000 Hz every file
is skipped, yet the cell does not fail at stacking: `tf.stack([])`
succeeds (a `(0,)`-shaped tensor) and it is the summary print's
`noises.shape[1]` access that raises. -/
theorem c10_empty_stack_counterexample :
    noisePoolCell [([], 8000)] = PoolOutcome.printError (tfStack []) ∧
    noisePoolCell [([], 8000)] ≠ PoolOutcome.stackError := by
  constructor
  · rfl
  · decide

/-- C10 (amended): when at least one noise file is discovered but every
one of them is skipped for a rate mismatch, stacking the empty chunk
list succeeds and the cell instead fails at the summary print's
`noises.shape[1]` access, so it still does not proceed into training
with an empty pool; when no rate-matching file is shorter than one
second and at least one rate-matching file holds a full chunk, the
cell completes with a nonempty pool; the stacking step itself never
fails. -/
theorem c10_all_skipped_amended :
    (∀ files : List (List ℚ × ℕ), files ≠ [] →
        (∀ f ∈ files, f.2 ≠ SAMPLING_RATE) →
        noisePoolCell files = PoolOutcome.printError (tfStack [])) ∧
    (∀ files : List (List ℚ × ℕ),
        (∀ f ∈ files, f.2 = SAMPLING_RATE → SAMPLING_RATE ≤ f.1.length) →
        (∃ f ∈ files, f.2 = SAMPLING_RATE ∧ SAMPLING_RATE ≤ f.1.length) →
        ∃ pool, noisePoolCell files = PoolOutcome.ok pool ∧ pool ≠ []) ∧
    (∀ files : List (List ℚ × ℕ), noisePoolCell files ≠ PoolOutcome.stackError) := by
  refine ⟨?_, ?_, ?_⟩
  · intro files _ hall
    rw [noisePoolCell, foldl_poolStep_all_mismatch files [] hall]
    rfl
  · intro files hsafe hex
    obtain ⟨f, hf, hrate, hlen⟩ := hex
    obtain ⟨s, t, rfl⟩ := List.append_of_mem hf
    obtain ⟨cs, hload, hcne⟩ := load_noise_sample_chunks f.1 f.2 hrate hlen
    obtain ⟨r1, hr1⟩ := foldl_poolStep_safe s []
      (fun g hg => hsafe g (List.mem_append_left _ hg))
    obtain ⟨r2, hr2⟩ := foldl_poolStep_safe t (([] ++ r1) ++ cs)
      (fun g hg => hsafe g (List.mem_append_right _ (List.mem_cons_of_mem f hg)))
    have hfold : (s ++ f :: t).foldl poolStep (some [])
        = some ((([] ++ r1) ++ cs) ++ r2) := by
      rw [List.foldl_append, hr1, List.foldl_cons, poolStep, hload, hr2]
    have hne : ((([] : List (List ℚ)) ++ r1) ++ cs) ++ r2 ≠ [] := by
      intro hh
      rcases List.append_eq_nil.mp hh with ⟨h1, -⟩
      rcases List.append_eq_nil.mp h1 with ⟨-, h2⟩
      exact hcne h2
    exact ⟨_, noisePoolCell_of_some _ _ hfold hne, hne⟩
  · intro files
    rw [noisePoolCell]
    cases files.foldl poolStep (some []) with
    | none => intro h; cases h
    | some noises =>
        cases noises with
        | nil => intro h; cases h
        | cons c cs => intro h; cases h

/-- C10 witness: one discovered file at 8000 Hz leaves an empty pool
and the cell fails at the print; one discovered 1-second file at
16000 Hz completes with a nonempty pool. -/
theorem c10_all_skipped_amended_witness :
    noisePoolCell [([], 8000)] = PoolOutcome.printError (tfStack []) ∧
    (∃ pool, noisePoolCell [(List.replicate 16000 (0 : ℚ), 16000)]
        = PoolOutcome.ok pool ∧ pool ≠ []) := by
  constructor
  · refine c10_all_skipped_amended.1 [([], 8000)] (by simp) ?_
    intro f hf
    have hfe : f = (([] : List ℚ), 8000) := by simpa using hf
    rw [hfe]
    norm_num [SAMPLING_RATE]
  · refine c10_all_skipped_amended.2.1 _ ?_
      ⟨(List.replicate 16000 (0 : ℚ), 16000), List.mem_singleton.mpr rfl, rfl, ?_⟩
    · intro f hf _
      have hfe : f = (List.replicate 16000 (0 : ℚ), 16000) := List.mem_singleton.mp hf
      rw [hfe, List.length_replicate]
      exact Nat.le_refl _
    · rw [List.length_replicate]
      exact Nat.le_refl _

/- ===== C1 / C9 helper lemmas ===== -/

theorem foldl_max_init_le (xs : List ℚ) (a : ℚ) : a ≤ xs.foldl max a := by
  induction xs generalizing a with
  | nil => exact le_refl a
  | cons x xs ih =>
      rw [List.foldl_cons]
      exact le_trans (le_max_left a x) (ih (max a x))

theorem foldl_max_le_of_mem (xs : List ℚ) (a x : ℚ) (h : x ∈ xs) :
    x ≤ xs.foldl max a := by
  induction xs generalizing a with
  | nil => cases h
  | cons y ys ih =>
      rw [List.foldl_cons]
      rcases List.mem_cons.mp h with rfl | h
      · exact le_trans (le_max_right a x) (foldl_max_init_le ys (max a x))
      · exact ih (max a y) h

theorem foldl_max_le (xs : List ℚ) (a B : ℚ) (ha : a ≤ B)
    (h : ∀ x ∈ xs, x ≤ B) : xs.foldl max a ≤ B := by
  induction xs generalizing a with
  | nil => exact ha
  | cons x xs ih =>
      rw [List.foldl_cons]
      exact ih (max a x) (max_le ha (h x (List.mem_cons_self x xs)))
        (fun y hy => h y (List.mem_cons_of_mem x hy))

theorem le_listMax (l : List ℚ) (x : ℚ) (h : x ∈ l) : x ≤ listMax l := by
  cases l with
  | nil => cases h
  | cons y ys =>
      rw [listMax]
      rcases List.mem_cons.mp h with rfl | h
      · exact foldl_max_init_le ys x
      · exact foldl_max_le_of_mem ys y x h

theorem listMax_le (l : List ℚ) (B : ℚ) (hB : 0 ≤ B)
    (h : ∀ x ∈ l, x ≤ B) : listMax l ≤ B := by
  cases l with
  | nil => exact hB
  | cons y ys =>
      rw [listMax]
      exact foldl_max_le ys y B (h y (List.mem_cons_self y ys))
        (fun x hx => h x (List.mem_cons_of_mem y hx))

theorem abs_le_maxAbs (l : List ℚ) (x : ℚ) (h : x ∈ l) : |x| ≤ maxAbs l :=
  le_listMax _ _ (List.mem_map.mpr ⟨x, h, rfl⟩)

theorem maxAbs_nonneg (l : List ℚ) : 0 ≤ maxAbs l := by
  cases l with
  | nil => exact le_refl 0
  | cons y ys =>
      exact le_trans (abs_nonneg y)
        (abs_le_maxAbs (y :: ys) y (List.mem_cons_self y ys))

theorem mem_zipWith {α β γ : Type} {f : α → β → γ} :
    ∀ {l : List α} {m : List β} {z : γ}, z ∈ List.zipWith f l m →
      ∃ a b, a ∈ l ∧ b ∈ m ∧ z = f a b
  | [], _, _, h => by cases h
  | _ :: _, [], _, h => by cases h
  | a :: l, b :: m, z, h => by
    rw [List.zipWith_cons_cons] at h
    rcases List.mem_cons.mp h with rfl | h
    · exact ⟨a, b, List.mem_cons_self _ _, List.mem_cons_self _ _, rfl⟩
    · obtain ⟨a', b', ha, hb, hz⟩ := mem_zipWith h
      exact ⟨a', b', List.mem_cons_of_mem a ha, List.mem_cons_of_mem b hb, hz⟩

/- ===== C1 ===== -/

/-- C1 counterexample: for waveform `[-2, 1]` and noise chunk `[-4, 1]`
the code's mixing coefficient `reduce_max(w) / reduce_max(n) = 1`
differs from the claimed `max|w| / max|n| = 1/2`, and the mixed
waveform `[-4, 3/2]` has peak absolute amplitude `4`, exceeding the
claimed bound `max|w| + scale * max|w| = 3` at `scale = SCALE = 1/2`. -/
theorem c1_add_noise_counterexample :
    (listMax [(-2 : ℚ), 1] / listMax [(-4 : ℚ), 1]
      ≠ maxAbs [(-2 : ℚ), 1] / maxAbs [(-4 : ℚ), 1]) ∧
    ¬ (maxAbs (addNoiseWave SCALE [(-2 : ℚ), 1] [(-4 : ℚ), 1])
      ≤ maxAbs [(-2 : ℚ), 1] + SCALE * maxAbs [(-2 : ℚ), 1]) := by
  have habs2 : |(-2 : ℚ)| = 2 := by rw [abs_of_neg] <;> norm_num
  have habs4 : |(-4 : ℚ)| = 4 := by rw [abs_of_neg] <;> norm_num
  have habs1 : |(1 : ℚ)| = 1 := abs_one
  have hw : listMax [(-2 : ℚ), 1] = 1 := by
    rw [listMax, List.foldl_cons, List.foldl_nil, max_eq_right (by norm_num : (-2 : ℚ) ≤ 1)]
  have hn : listMax [(-4 : ℚ), 1] = 1 := by
    rw [listMax, List.foldl_cons, List.foldl_nil, max_eq_right (by norm_num : (-4 : ℚ) ≤ 1)]
  have hwa : maxAbs [(-2 : ℚ), 1] = 2 := by
    rw [maxAbs, List.map_cons, List.map_cons, List.map_nil, habs2, habs1,
      listMax, List.foldl_cons, List.foldl_nil, max_eq_left (by norm_num : (1 : ℚ) ≤ 2)]
  have hna : maxAbs [(-4 : ℚ), 1] = 4 := by
    rw [maxAbs, List.map_cons, List.map_cons, List.map_nil, habs4, habs1,
      listMax, List.foldl_cons, List.foldl_nil, max_eq_left (by norm_num : (1 : ℚ) ≤ 4)]
  have hmix : addNoiseWave SCALE [(-2 : ℚ), 1] [(-4 : ℚ), 1] = [-4, 3 / 2] := by
    simp only [addNoiseWave, hw, hn, List.zipWith_cons_cons, List.zipWith_nil_right]
    norm_num [SCALE]
  constructor
  · rw [hw, hn, hwa, hna]
    norm_num
  · rw [hmix, hwa]
    have habs32 : |(3 / 2 : ℚ)| = 3 / 2 := abs_of_nonneg (by norm_num)
    have hma : maxAbs [(-4 : ℚ), 3 / 2] = 4 := by
      rw [maxAbs, List.map_cons, List.map_cons, List.map_nil, habs4, habs32,
        listMax, List.foldl_cons, List.foldl_nil,
        max_eq_left (by norm_num : (3 / 2 : ℚ) ≤ 4)]
    rw [hma]
    norm_num [SCALE]

/-- C1 (amended): the mixing coefficient is the ratio of the signed
maxima `reduce_max(w) / reduce_max(n)`; whenever those signed maxima
agree with the peak absolute amplitudes (as for signals attaining
their peak at a non-negative sample) and the chunk's maximum is
positive, the mixed waveform's peak is bounded by
`max|w| + scale * max|w|`. -/
theorem c1_add_noise_amended (w n : List ℚ) (scale : ℚ) (hs : 0 ≤ scale)
    (hw : listMax w = maxAbs w) (hn : listMax n = maxAbs n)
    (hpos : 0 < listMax n) :
    maxAbs (addNoiseWave scale w n) ≤ maxAbs w + scale * maxAbs w := by
  have hA : 0 ≤ maxAbs w := maxAbs_nonneg w
  have hN : 0 < maxAbs n := hn ▸ hpos
  have hNne : maxAbs n ≠ 0 := ne_of_gt hN
  have hprop0 : 0 ≤ maxAbs w / maxAbs n := div_nonneg hA (le_of_lt hN)
  apply listMax_le
  · positivity
  · intro y hy
    obtain ⟨z, hz, rfl⟩ := List.mem_map.mp hy
    simp only [addNoiseWave, hw, hn] at hz
    obtain ⟨a, b, ha, hb, rfl⟩ := mem_zipWith hz
    have haw : |a| ≤ maxAbs w := abs_le_maxAbs w a ha
    have hbn : |b| ≤ maxAbs n := abs_le_maxAbs n b hb
    calc |a + b * (maxAbs w / maxAbs n) * scale|
        ≤ |a| + |b * (maxAbs w / maxAbs n) * scale| := abs_add _ _
      _ = |a| + |b| * (maxAbs w / maxAbs n) * scale := by
          rw [abs_mul, abs_mul, abs_of_nonneg hprop0, abs_of_nonneg hs]
      _ ≤ maxAbs w + maxAbs n * (maxAbs w / maxAbs n) * scale := by
          have h1 : |b| * (maxAbs w / maxAbs n) ≤ maxAbs n * (maxAbs w / maxAbs n) :=
            mul_le_mul_of_nonneg_right hbn hprop0
          exact add_le_add haw (mul_le_mul_of_nonneg_right h1 hs)
      _ = maxAbs w + scale * maxAbs w := by
          rw [← mul_div_assoc, mul_div_cancel_left₀ _ hNne, mul_comm]

/-- C1 witness: the amended bound at waveform `[1]`, chunk `[1]` and
`scale = SCALE`. -/
theorem c1_add_noise_amended_witness :
    ((0 : ℚ) ≤ SCALE ∧ listMax [(1 : ℚ)] = maxAbs [(1 : ℚ)] ∧
      0 < listMax [(1 : ℚ)]) ∧
    maxAbs (addNoiseWave SCALE [(1 : ℚ)] [(1 : ℚ)])
      ≤ maxAbs [(1 : ℚ)] + SCALE * maxAbs [(1 : ℚ)] := by
  have h1 : listMax [(1 : ℚ)] = maxAbs [(1 : ℚ)] := by
    rw [maxAbs, List.map_cons, List.map_nil, abs_one]
  refine ⟨⟨by norm_num [SCALE], h1, by norm_num [listMax]⟩, ?_⟩
  exact c1_add_noise_amended [(1 : ℚ)] [(1 : ℚ)] SCALE (by norm_num [SCALE]) h1 h1
    (by norm_num [listMax])

/- ===== C9 ===== -/

/-- C9: `add_noise` divides by the chunk's `reduce_max` with no guard:
a chunk whose maximum sample is zero makes the mixing coefficient a
division by zero and the mixed waveform undefined; and whenever every
pooled chunk has a strictly positive maximum, every waveform of every
batch is mixed without hitting the division by zero. -/
theorem c9_division_guard :
    (∀ (scale : ℚ) (w n : List ℚ), listMax n = 0 →
        addNoiseWaveChecked scale w n = none) ∧
    (∀ (scale : ℚ) (pool : List (List ℚ)) (draw : ℕ → ℕ)
        (batch : List (List ℚ)),
        (∀ c ∈ pool, 0 < listMax c) → (∀ i, draw i < pool.length) →
        ∀ r ∈ addNoiseBatchChecked pool draw scale batch, r.isSome = true) := by
  constructor
  · intro scale w n h
    rw [addNoiseWaveChecked, checkedDiv, if_pos h]
    rfl
  · intro scale pool draw batch hpool hdraw r hr
    rw [addNoiseBatchChecked] at hr
    obtain ⟨p, _, rfl⟩ := List.mem_map.mp hr
    have hk := hdraw p.1
    have h1 : pool.getD (draw p.1) [] = pool[draw p.1] := by
      rw [List.getD_eq_getElem?_getD, List.getElem?_eq_getElem hk]
      rfl
    have hmem : pool[draw p.1] ∈ pool := List.getElem_mem hk
    have hc := hpool _ hmem
    rw [h1, addNoiseWaveChecked, checkedDiv, if_neg (ne_of_gt hc)]
    rfl

/-- C9 witness: a chunk of zeros makes mixing undefined; a one-chunk
pool with positive maximum mixes a batch with no division by zero. -/
theorem c9_division_guard_witness :
    (listMax [(0 : ℚ), 0] = 0 ∧ addNoiseWaveChecked 1 [1] [(0 : ℚ), 0] = none) ∧
    (∀ r ∈ addNoiseBatchChecked [[(1 : ℚ)]] (fun _ => 0) SCALE [[(2 : ℚ)]],
      r.isSome = true) := by
  have h0 : listMax [(0 : ℚ), 0] = 0 := by
    rw [listMax, List.foldl_cons, List.foldl_nil, max_self]
  refine ⟨⟨h0, c9_division_guard.1 1 [1] [(0 : ℚ), 0] h0⟩, ?_⟩
  refine c9_division_guard.2 SCALE [[(1 : ℚ)]] (fun _ => 0) [[(2 : ℚ)]] ?_ ?_
  · intro c hc
    have : c = [(1 : ℚ)] := by simpa using hc
    rw [this]
    norm_num [listMax]
  · intro i
    norm_num

/- ===== C3 ===== -/

/-- C3 counterexample: the validation stream's per-batch `.map` stages
contain no noise-injection stage at all. -/
theorem c3_valid_noise_counterexample :
    PipeStage.noiseInjection ∉ valid_ds_maps := by
  decide

/-- C3 (amended): the epoch-wise validation stream applies only the
spectral transform to its batches (no noise); noise injection followed
by the spectral transform is applied to the training stream, and the
demo stream of cell 23 is the one evaluated with noise present. -/
theorem c3_valid_stream_amended :
    valid_ds_maps = [PipeStage.spectralTransform] ∧
    train_ds_maps = [PipeStage.noiseInjection, PipeStage.spectralTransform] ∧
    test_ds_maps = [PipeStage.noiseInjection] ∧
    (∀ (pool : List (List ℝ)) (draw : ℕ → ℕ) (scale : ℝ)
        (batch : List (List ℝ)),
      runStages pool draw scale valid_ds_maps batch = audio_to_fft batch) :=
  ⟨rfl, rfl, rfl, fun _ _ _ _ => rfl⟩

/- ===== C2 helper lemmas ===== -/

theorem esRunAux_append (p : ℕ) (acc : ℕ → ℚ) (st : ESState)
    (l1 l2 : List ℕ) :
    esRunAux p acc st (l1 ++ l2) =
      match esRunAux p acc st l1 with
      | (some e, st') => (some e, st')
      | (none, st') => esRunAux p acc st' l2 := by
  induction l1 generalizing st with
  | nil => rfl
  | cons e es ih =>
      rw [List.cons_append, esRunAux, esRunAux]
      by_cases h : (esStep p st e (acc e)).2
      · simp only [h, if_true]
      · simp only [h, if_false, Bool.false_eq_true, ih]

theorem esRunAux_climb (p : ℕ) (acc : ℕ → ℚ) :
    ∀ n : ℕ, 1 ≤ n → (∀ e, 1 ≤ e → e < n → acc e < acc (e + 1)) →
      esRunAux p acc ⟨none, 0, 0⟩ (List.range' 1 n) =
        (none, ⟨some (acc n), n, 0⟩)
  | 0, h, _ => absurd h (by norm_num)
  | 1, _, _ => by
      rw [List.range'_succ]
      simp [esRunAux, esStep, esImproves, List.range']
  | n + 2, _, hinc => by
      have hsplit : List.range' 1 (n + 2) = List.range' 1 (n + 1) ++ [n + 2] := by
        have h : List.range' 1 (n + 1 + 1) 1
            = List.range' 1 (n + 1) 1 ++ [1 + 1 * (n + 1)] :=
          List.range'_concat 1 (n + 1)
        have e1 : 1 + 1 * (n + 1) = n + 2 := by omega
        rw [e1] at h
        exact h
      rw [hsplit, esRunAux_append,
        esRunAux_climb p acc (n + 1) (by omega)
          (fun e he1 he2 => hinc e he1 (by omega))]
      have himp : esImproves ⟨some (acc (n + 1)), n + 1, 0⟩ (acc (n + 2)) = true := by
        rw [esImproves, decide_eq_true_iff]
        exact hinc (n + 1) (by omega) (by omega)
      simp [esRunAux, esStep, himp]

theorem esRunAux_stall (p : ℕ) (acc : ℕ → ℚ) (b : ℚ) (be : ℕ) :
    ∀ (n w s : ℕ), 1 ≤ n → w + n = p →
      (∀ e, s ≤ e → e < s + n → acc e ≤ b) →
      esRunAux p acc ⟨some b, be, w⟩ (List.range' s n) =
        (some (s + n - 1), ⟨some b, be, p⟩)
  | 0, _, _, h, _, _ => absurd h (by norm_num)
  | 1, w, s, _, hw, hb => by
      have hbs : acc s ≤ b := hb s (le_refl s) (by omega)
      have himp : esImproves ⟨some b, be, w⟩ (acc s) = false := by
        rw [esImproves, decide_eq_false_iff_not]
        exact not_lt.mpr hbs
      have hhalt : p ≤ w + 1 := by omega
      rw [List.range'_succ]
      simp [esRunAux, esStep, himp, List.range', decide_eq_true hhalt, hw]
  | n + 2, w, s, _, hw, hb => by
      have hbs : acc s ≤ b := hb s (le_refl s) (by omega)
      have himp : esImproves ⟨some b, be, w⟩ (acc s) = false := by
        rw [esImproves, decide_eq_false_iff_not]
        exact not_lt.mpr hbs
      have hnohalt : ¬ (p ≤ w + 1) := by omega
      rw [List.range'_succ, esRunAux]
      simp only [esStep, himp, Bool.false_eq_true, if_false,
        decide_eq_false hnohalt]
      rw [esRunAux_stall p acc b be (n + 1) (w + 1) (s + 1) (by omega) (by omega)
        (fun e he1 he2 => hb e (by omega) (by omega))]
      have harith : s + 1 + (n + 1) - 1 = s + (n + 2) - 1 := by omega
      rw [harith]

/- ===== C2 ===== -/

/-- C2: with patience 10 and 100 epochs, a run whose validation
accuracy strictly improves every epoch up to its peak at epoch 12 and
never improves afterwards halts at epoch 22, and the restored
parameters are those recorded at epoch 12 (the `bestEpoch` of the
final state). -/
theorem c2_early_stopping (acc : ℕ → ℚ)
    (hinc : ∀ e, 1 ≤ e → e < 12 → acc e < acc (e + 1))
    (hflat : ∀ e, 12 < e → acc e ≤ acc 12) :
    esRun 10 100 acc = (some 22, ⟨some (acc 12), 12, 10⟩) := by
  rw [esRun]
  have h1 : List.range' 1 100 = List.range' 1 12 ++ List.range' 13 88 := by
    have h : List.range' 1 12 1 ++ List.range' (1 + 1 * 12) 88 1
        = List.range' 1 (12 + 88) 1 := List.range'_append 1 12 88 1
    norm_num at h
    exact h.symm
  rw [h1, esRunAux_append, esRunAux_climb 10 acc 12 (by norm_num) hinc]
  have h2 : List.range' 13 88 = List.range' 13 10 ++ List.range' 23 78 := by
    have h : List.range' 13 10 1 ++ List.range' (13 + 1 * 10) 78 1
        = List.range' 13 (10 + 78) 1 := List.range'_append 13 10 78 1
    norm_num at h
    exact h.symm
  rw [h2]
  show esRunAux 10 acc ⟨some (acc 12), 12, 0⟩
      (List.range' 13 10 ++ List.range' 23 78) = _
  rw [esRunAux_append, esRunAux_stall 10 acc (acc 12) 12 10 0 13 (by norm_num)
    (by norm_num) (fun e he1 _ => hflat e (by omega))]

/-- C2 witness: the concrete accuracy history `min e 12` peaks at
epoch 12; the run halts at epoch 22 with best epoch 12 restored. -/
theorem c2_early_stopping_witness :
    esRun 10 100 accPeak12 = (some 22, ⟨some (accPeak12 12), 12, 10⟩) := by
  apply c2_early_stopping
  · intro e h1 h2
    rw [accPeak12, accPeak12]
    have hmin1 : min e 12 = e := Nat.min_eq_left (by omega)
    have hmin2 : min (e + 1) 12 = e + 1 := Nat.min_eq_left (by omega)
    rw [hmin1, hmin2]
    exact_mod_cast Nat.lt_succ_self e
  · intro e he
    rw [accPeak12, accPeak12]
    apply Nat.cast_le.mpr
    omega

/- ===== C5 helper lemmas ===== -/

theorem zip_get? {α β : Type} :
    ∀ (l : List α) (m : List β) (i : ℕ),
      (l.zip m).get? i =
        match l.get? i, m.get? i with
        | some a, some b => some (a, b)
        | _, _ => none
  | [], m, i => by cases m <;> cases i <;> rfl
  | x :: l, [], i => by
      rw [List.zip_nil_right]
      cases h : (x :: l).get? i <;> simp [h]
  | a :: l, b :: m, 0 => rfl
  | a :: l, b :: m, i + 1 => zip_get? l m i

theorem zip_set {α β : Type} :
    ∀ (l : List α) (m : List β) (i : ℕ) (a : α) (b : β),
      (l.set i a).zip (m.set i b) = (l.zip m).set i (a, b)
  | [], m, i, _, _ => by cases m <;> cases i <;> rfl
  | _ :: _, [], i, _, _ => by cases i <;> rfl
  | x :: l, y :: m, 0, a, b => rfl
  | x :: l, y :: m, i + 1, a, b => by
      rw [List.set_cons_succ, List.set_cons_succ, List.zip_cons_cons,
        List.zip_cons_cons, List.set_cons_succ, zip_set l m i a b]

theorem swapIdx_length {α : Type} (l : List α) (i j : ℕ) :
    (swapIdx l i j).length = l.length := by
  rw [swapIdx]
  cases h1 : l.get? i <;> cases h2 : l.get? j <;> simp

theorem swapIdx_of_snd_none {α : Type} (l : List α) (i j : ℕ)
    (h : l.get? j = none) : swapIdx l i j = l := by
  rw [swapIdx, h]
  cases l.get? i <;> rfl

theorem swapIdx_of_fst_none {α : Type} (l : List α) (i j : ℕ)
    (h : l.get? i = none) : swapIdx l i j = l := by
  rw [swapIdx, h]

theorem swapIdx_zip {α β : Type} (l : List α) (m : List β) (i j : ℕ)
    (hlen : l.length = m.length) :
    (swapIdx l i j).zip (swapIdx m i j) = swapIdx (l.zip m) i j := by
  by_cases hi : i < l.length
  · by_cases hj : j < l.length
    · have hli := List.get?_eq_get hi
      have hlj := List.get?_eq_get hj
      have hmi := List.get?_eq_get (show i < m.length from hlen ▸ hi)
      have hmj := List.get?_eq_get (show j < m.length from hlen ▸ hj)
      have hzi : (l.zip m).get? i = some (l.get ⟨i, hi⟩, m.get ⟨i, hlen ▸ hi⟩) := by
        rw [zip_get?, hli, hmi]
      have hzj : (l.zip m).get? j = some (l.get ⟨j, hj⟩, m.get ⟨j, hlen ▸ hj⟩) := by
        rw [zip_get?, hlj, hmj]
      rw [swapIdx, swapIdx, swapIdx, hli, hlj, hmi, hmj, hzi, hzj]
      rw [zip_set, zip_set]
    · have hlj : l.get? j = none := List.get?_eq_none.mpr (by omega)
      have hmj : m.get? j = none := List.get?_eq_none.mpr (by omega)
      have hzj : (l.zip m).get? j = none := by
        rw [zip_get?, hlj]
      rw [swapIdx_of_snd_none l i j hlj, swapIdx_of_snd_none m i j hmj,
        swapIdx_of_snd_none (l.zip m) i j hzj]
  · have hli : l.get? i = none := List.get?_eq_none.mpr (by omega)
    have hmi : m.get? i = none := List.get?_eq_none.mpr (by omega)
    have hzi : (l.zip m).get? i = none := by
      rw [zip_get?, hli]
    rw [swapIdx_of_fst_none l i j hli, swapIdx_of_fst_none m i j hmi,
      swapIdx_of_fst_none (l.zip m) i j hzi]

theorem fyAux_length {α : Type} (g : ℕ → ℕ) :
    ∀ (k : ℕ) (l : List α), (fyAux g k l).length = l.length
  | 0, _ => rfl
  | k + 1, l => by
      rw [fyAux, fyAux_length g k, swapIdx_length]

theorem fyAux_zip {α β : Type} (g : ℕ → ℕ) :
    ∀ (k : ℕ) (l : List α) (m : List β), l.length = m.length →
      (fyAux g k l).zip (fyAux g k m) = fyAux g k (l.zip m)
  | 0, _, _, _ => rfl
  | k + 1, l, m, hlen => by
      rw [fyAux, fyAux, fyAux,
        fyAux_zip g k _ _ (by rw [swapIdx_length, swapIdx_length, hlen]),
        swapIdx_zip l m _ _ hlen]

theorem mem_of_mem_swapIdx {α : Type} (l : List α) (i j : ℕ) (x : α)
    (h : x ∈ swapIdx l i j) : x ∈ l := by
  rw [swapIdx] at h
  cases h1 : l.get? i with
  | none => rw [h1] at h; exact h
  | some a =>
      cases h2 : l.get? j with
      | none =>
          rw [h1, h2] at h
          exact h
      | some b =>
          rw [h1, h2] at h
          rcases List.mem_or_eq_of_mem_set h with h3 | h3
          · rcases List.mem_or_eq_of_mem_set h3 with h4 | h4
            · exact h4
            · exact h4 ▸ List.get?_mem h2
          · exact h3 ▸ List.get?_mem h1

theorem mem_of_mem_fyAux {α : Type} (g : ℕ → ℕ) :
    ∀ (k : ℕ) (l : List α) (x : α), x ∈ fyAux g k l → x ∈ l
  | 0, _, _, h => h
  | k + 1, l, x, h => by
      rw [fyAux] at h
      exact mem_of_mem_swapIdx _ _ _ _ (mem_of_mem_fyAux g k _ x h)

theorem zip_getD {α β : Type} (l : List α) (m : List β) (i : ℕ)
    (da : α) (db : β) (hi : i < l.length) (hi2 : i < m.length) :
    (l.zip m).getD i (da, db) = (l.getD i da, m.getD i db) := by
  have hli := List.get?_eq_get hi
  have hmi := List.get?_eq_get hi2
  have hzi : (l.zip m).get? i = some (l.get ⟨i, hi⟩, m.get ⟨i, hi2⟩) := by
    rw [zip_get?, hli, hmi]
  rw [List.getD_eq_getElem?_getD, List.getD_eq_getElem?_getD,
    List.getD_eq_getElem?_getD, ← List.get?_eq_getElem?, ← List.get?_eq_getElem?,
    ← List.get?_eq_getElem?, hli, hmi, hzi]
  rfl

/- ===== C5 ===== -/

/-- C5: two Fisher-Yates shuffles driven by the same seed-determined
draw stream `g`, applied to the parallel path and label lists of equal
length, put at every position `i` a path and a label that belonged to
the same original clip (the pair is one of the original zipped
pairs). -/
theorem c5_parallel_shuffle {P L : Type} (g : ℕ → ℕ)
    (paths : List P) (labels : List L)
    (hlen : paths.length = labels.length) (i : ℕ)
    (hi : i < paths.length) (dp : P) (dl : L) :
    ((npShuffle g paths).getD i dp, (npShuffle g labels).getD i dl)
      ∈ paths.zip labels := by
  have hzlen : (paths.zip labels).length = paths.length := by
    rw [List.length_zip, hlen, Nat.min_self]
  have hzip : (npShuffle g paths).zip (npShuffle g labels)
      = npShuffle g (paths.zip labels) := by
    rw [npShuffle, npShuffle, npShuffle, hzlen, ← hlen]
    exact fyAux_zip g (paths.length - 1) paths labels hlen
  have hslen : (npShuffle g paths).length = paths.length :=
    fyAux_length g _ _
  have hslen2 : (npShuffle g labels).length = labels.length :=
    fyAux_length g _ _
  have hgetD : ((npShuffle g paths).zip (npShuffle g labels)).getD i (dp, dl)
      = ((npShuffle g paths).getD i dp, (npShuffle g labels).getD i dl) :=
    zip_getD _ _ i dp dl (by omega) (by omega)
  rw [← hgetD, hzip]
  have hlen3 : i < (npShuffle g (paths.zip labels)).length := by
    rw [npShuffle, fyAux_length]
    omega
  have hmem : (npShuffle g (paths.zip labels)).getD i (dp, dl)
      ∈ npShuffle g (paths.zip labels) := by
    rw [List.getD_eq_getElem?_getD, ← List.get?_eq_getElem?,
      List.get?_eq_get hlen3]
    exact List.get_mem _ _ _
  exact mem_of_mem_fyAux g _ _ _ hmem

/-- C5 witness: the parallel shuffle of `[10, 20]` and `[5, 6]` keeps
position 0 a matched (path, label) pair of the original clips. -/
theorem c5_parallel_shuffle_witness :
    ((npShuffle (fun k => k) [10, 20]).getD 0 0,
      (npShuffle (fun k => k) [5, 6]).getD 0 0) ∈ List.zip [10, 20] [5, 6] :=
  c5_parallel_shuffle (fun k => k) [10, 20] [5, 6] rfl 0 (by norm_num) 0 0

/- ===== C8 helper lemmas ===== -/

theorem denseLayer_length {α : Type} [LinearOrderedField α]
    (w : List (List α)) (b : List α) (x : List α) :
    (denseLayer w b x).length = min w.length b.length := by
  rw [denseLayer, List.length_map, List.length_zip]

theorem sum_map_div (l : List ℝ) (c : ℝ) :
    (l.map (fun t => t / c)).sum = l.sum / c := by
  induction l with
  | nil => simp
  | cons x xs ih => rw [List.map_cons, List.sum_cons, List.sum_cons, ih, add_div]

theorem softmaxV_spec (z : List ℝ) (hz : z ≠ []) :
    (softmaxV z).length = z.length ∧ (∀ p ∈ softmaxV z, 0 ≤ p) ∧
      (softmaxV z).sum = 1 := by
  have hpos : 0 < (z.map Real.exp).sum := by
    apply List.sum_pos
    · intro x hx
      obtain ⟨y, _, rfl⟩ := List.mem_map.mp hx
      exact Real.exp_pos y
    · simpa using hz
  refine ⟨List.length_map _ _, ?_, ?_⟩
  · intro p hp
    obtain ⟨y, _, rfl⟩ := List.mem_map.mp hp
    exact div_nonneg (Real.exp_pos y).le hpos.le
  · rw [softmaxV,
      show (fun zi => Real.exp zi / (z.map Real.exp).sum)
        = (fun t => t / (z.map Real.exp).sum) ∘ Real.exp from rfl,
      ← List.map_map, sum_map_div, div_self (ne_of_gt hpos)]

/- ===== C8 ===== -/

/-- C8: for every input batch and every weight assignment whose output
layer is `Dense(num_classes)` (weight rows and biases of length equal
to the positive class count), each output row of the model is a valid
categorical distribution: width `num_classes`, all entries
non-negative, and summing to 1 exactly. -/
theorem c8_model_distribution (w : ModelWeights ℝ) (nc : ℕ)
    (hw1 : w.dOutW.length = nc) (hw2 : w.dOutB.length = nc) (hnc : 0 < nc)
    (batch : List (List (List ℝ))) :
    ∀ row ∈ batch.map (build_model w),
      row.length = nc ∧ (∀ p ∈ row, 0 ≤ p) ∧ row.sum = 1 := by
  have key : ∀ z : List ℝ, z.length = nc →
      (softmaxV z).length = nc ∧ (∀ p ∈ softmaxV z, 0 ≤ p) ∧
        (softmaxV z).sum = 1 := by
    intro z hzl
    have hzne : z ≠ [] := by
      intro h
      rw [h] at hzl
      simp only [List.length_nil] at hzl
      omega
    obtain ⟨hl, hnn, hs⟩ := softmaxV_spec z hzne
    exact ⟨by rw [hl, hzl], hnn, hs⟩
  intro row hrow
  obtain ⟨x, _, rfl⟩ := List.mem_map.mp hrow
  exact key _ (by rw [denseLayer_length, hw1, hw2, Nat.min_self])

/-- C8 witness: a one-class output layer on a trivial input batch
produces the distribution `[1]`. -/
theorem c8_model_distribution_witness :
    (modelWitnessWeights.dOutW.length = 1 ∧ modelWitnessWeights.dOutB.length = 1) ∧
    ((build_model modelWitnessWeights []).length = 1 ∧
      (∀ p ∈ build_model modelWitnessWeights [], 0 ≤ p) ∧
      (build_model modelWitnessWeights []).sum = 1) := by
  refine ⟨⟨rfl, rfl⟩, ?_⟩
  exact c8_model_distribution modelWitnessWeights 1 rfl rfl (by norm_num)
    [[]] (build_model modelWitnessWeights []) (by
      rw [List.map_cons, List.map_nil]
      exact List.mem_singleton.mpr rfl)
